import Mathlib

/-!
Verification of the notes extraction-and-reconciliation pipeline and of the
week5 React frontend helpers.

The backend pipeline (text normalizer, heuristic extractor, structured
extractor, orchestrator, reconciliation engine) is modelled from the
specification document, since the Python service sources are not part of this
tree; the frontend helpers (`NotesList` tag filtering, `getTagColor`) are
embedded directly from the TypeScript sources.
-/

namespace NotesPipeline

/-! ## Text normalizer (modelled from the spec, §4.1) -/

/-- Modelled from the spec: word characters for the inline `#token` scan
(the regex class `\w`, i.e. letters, digits, underscore). -/
def isWordChar (c : Char) : Bool :=
  c.isAlpha || c.isDigit || c == '_'

/-- Case folding used for case-insensitive comparisons: per-character
lowercasing. -/
def foldChars (l : List Char) : List Char :=
  l.map Char.toLower

/-- Trim leading and trailing whitespace from a character list. -/
def trimChars (l : List Char) : List Char :=
  ((l.dropWhile Char.isWhitespace).reverse.dropWhile Char.isWhitespace).reverse

/-- Split a character stream at newline characters, accumulating the current
line in reverse. -/
def splitLinesAux : List Char → List Char → List (List Char)
  | [], acc => [acc.reverse]
  | c :: rest, acc =>
    if c == '\n' then acc.reverse :: splitLinesAux rest []
    else splitLinesAux rest (c :: acc)

/-- Modelled from the spec: split raw text into lines. -/
def splitLines (cs : List Char) : List (List Char) :=
  splitLinesAux cs []

/-- Modelled from the spec: the normalizer's ordered list of trimmed,
non-empty lines. -/
def normalizeLines (cs : List Char) : List (List Char) :=
  (splitLines cs).map trimChars |>.filter (fun l => !l.isEmpty)

/-- State machine for the inline hashtag scan: the second argument is `some
acc` while collecting the word characters that follow a `#` (in reverse). -/
def tagScanAux : List Char → Option (List Char) → List (List Char)
  | [], none => []
  | [], some acc => if acc.isEmpty then [] else [acc.reverse]
  | c :: rest, none =>
    if c == '#' then tagScanAux rest (some []) else tagScanAux rest none
  | c :: rest, some acc =>
    if isWordChar c then tagScanAux rest (some (c :: acc))
    else
      let out := if c == '#' then tagScanAux rest (some [])
                 else tagScanAux rest none
      if acc.isEmpty then out else acc.reverse :: out

/-- Modelled from the spec: scan the whole text for inline tag tokens, the
pattern `#` followed by one or more word characters. -/
def tagScan (cs : List Char) : List (List Char) :=
  tagScanAux cs none

/-! ## Heuristic extractor (modelled from the spec, §4.2) -/

/-- First-occurrence deduplication keyed by `key`, skipping elements whose key
was already seen; models the spec's "preserving first occurrence order and
the first-seen casing". -/
def firstDedupByAux (key : List Char → List Char) (seen : List (List Char)) :
    List (List Char) → List (List Char)
  | [] => []
  | x :: xs =>
    if key x ∈ seen then firstDedupByAux key seen xs
    else x :: firstDedupByAux key (key x :: seen) xs

/-- First-occurrence deduplication keyed by `key`. -/
def firstDedupBy (key : List Char → List Char) (l : List (List Char)) :
    List (List Char) :=
  firstDedupByAux key [] l

/-- Case-insensitive prefix test. -/
def startsWithCI (pat : String) (l : List Char) : Bool :=
  (foldChars pat.toList).isPrefixOf (foldChars l)

/-- Drop a matched marker of the given pattern length and trim the remainder. -/
def stripLen (n : Nat) (l : List Char) : List Char :=
  trimChars (l.drop n)

/-- Modelled from the spec: checkbox markers, tried in order. -/
def checkboxPats : List String :=
  ["- [ ]", "- [x]", "[ ]", "[x]", "[TODO]"]

/-- Modelled from the spec: keyword markers `TODO:`, `Action:`, `Next:`. -/
def keywordPats : List String :=
  ["TODO:", "Action:", "Next:"]

/-- Modelled from the spec: the fixed recognized-verb set of the
imperative-verb heuristic, lowercased. -/
def recognizedVerbs : List (List Char) :=
  ["add", "create", "implement", "fix", "update", "write", "check",
   "verify", "refactor", "document", "design", "investigate", "deploy",
   "review", "call"].map String.toList

/-- Find the first pattern in `pats` that is a case-insensitive prefix of the
line and return the trimmed remainder. -/
def matchPats (pats : List String) (l : List Char) : Option (List Char) :=
  match pats with
  | [] => none
  | p :: ps =>
    if startsWithCI p l then some (stripLen p.toList.length l)
    else matchPats ps l

/-- Bullet marker: `-`, `*`, or `•` followed by whitespace. -/
def matchBullet (l : List Char) : Option (List Char) :=
  match l with
  | c :: d :: rest =>
    if (c == '-' || c == '*' || c == '•') && d.isWhitespace then
      some (trimChars (d :: rest))
    else none
  | _ => none

/-- Numbered marker: one or more digits, then `.`, then whitespace. -/
def matchNumbered (l : List Char) : Option (List Char) :=
  let ds := l.takeWhile Char.isDigit
  if ds.isEmpty then none
  else
    match l.drop ds.length with
    | '.' :: d :: rest =>
      if d.isWhitespace then some (trimChars (d :: rest)) else none
    | _ => none

/-- Imperative-verb heuristic: the line's first word, case-insensitively, is
in the recognized-verb set; the candidate is the whole line. -/
def matchImperative (l : List Char) : Option (List Char) :=
  let firstWord := l.takeWhile (fun c => !c.isWhitespace)
  if foldChars firstWord ∈ recognizedVerbs then some l else none

/-- Modelled from the spec: classify one normalized line, first match wins:
checkbox, bullet, numbered, keyword prefix, imperative verb, otherwise none. -/
def classifyLine (l : List Char) : Option (List Char) :=
  match matchPats checkboxPats l with
  | some r => some r
  | none =>
    match matchBullet l with
    | some r => some r
    | none =>
      match matchNumbered l with
      | some r => some r
      | none =>
        match matchPats keywordPats l with
        | some r => some r
        | none => matchImperative l

/-- The extraction result: ordered candidate tag names and ordered candidate
action-item descriptions. -/
structure ExtractionResult where
  tags : List String
  action_items : List String
deriving DecidableEq, Repr

/-- Action-item candidates of a text: classify each normalized line in order. -/
def actionCandidates (cs : List Char) : List (List Char) :=
  (normalizeLines cs).filterMap classifyLine

/-- Modelled from the spec: the rule backend. Tags are the case-insensitively
deduplicated hashtag tokens in first-appearance order with first-seen casing;
action items are the per-line candidates deduplicated by exact equality. -/
def extractRule (text : String) : ExtractionResult :=
  { tags := (firstDedupBy foldChars (tagScan text.toList)).map List.asString
    action_items := (firstDedupBy id (actionCandidates text.toList)).map List.asString }

/-! ## Structured extractor and orchestrator (modelled from the spec, §4.3–4.4) -/

/-- A JSON value, used to model the body of the inference endpoint's
response once received. -/
inductive Json where
  | null : Json
  | bool (b : Bool) : Json
  | num (n : Int) : Json
  | str (s : String) : Json
  | arr (elems : List Json) : Json
  | obj (fields : List (String × Json)) : Json

/-- Extract a string array from a JSON value, failing on any non-string
element or non-array value. -/
def asStringArray : Json → Option (List String)
  | .arr elems =>
    elems.foldr (fun e acc =>
      match e, acc with
      | .str s, some l => some (s :: l)
      | _, _ => none) (some [])
  | _ => none

/-- Look up a field of a JSON object. -/
def jsonField (name : String) : Json → Option Json
  | .obj fields => (fields.find? (fun f => f.1 == name)).map (·.2)
  | _ => none

/-- Modelled from the spec: validate that the (parsed) response matches the
expected shape — an object carrying an array of tag-name strings and an array
of action-item strings. The input is `none` when the response body was not
valid JSON; the result is `none` whenever `ExtractionParseError` applies. -/
def schemaParse (resp : Option Json) : Option (List String × List String) :=
  match resp with
  | none => none
  | some j =>
    match (jsonField "tags" j).bind asStringArray,
          (jsonField "action_items" j).bind asStringArray with
    | some ts, some as_ => some (ts, as_)
    | _, _ => none

/-- Modelled from the spec: the light cleanup pass on an action item echoed
by the model — strip residual checkbox/bullet/numbering/keyword markers,
otherwise just trim. -/
def cleanupItem (l : List Char) : List Char :=
  match matchPats checkboxPats l with
  | some r => r
  | none =>
    match matchBullet l with
    | some r => r
    | none =>
      match matchNumbered l with
      | some r => r
      | none =>
        match matchPats keywordPats l with
        | some r => r
        | none => trimChars l

/-- The extraction error taxonomy of the structured backend. -/
inductive ExtractionError where
  | backendUnavailable : ExtractionError
  | backendTimeout : ExtractionError
  | parseError : ExtractionError
deriving DecidableEq

/-- Modelled from the spec: the StructuredExtractor's handling of a received
response — schema validation, cleanup, then deduplication identical to the
rule backend's. -/
def structuredExtract (resp : Option Json) : Except ExtractionError ExtractionResult :=
  match schemaParse resp with
  | none => .error .parseError
  | some (ts, as_) =>
    .ok { tags := (firstDedupBy foldChars (ts.map (fun s => trimChars s.toList))).map List.asString
          action_items := (firstDedupBy id (as_.map (fun s => cleanupItem s.toList))).map List.asString }

/-- The backend selection mode of `extract(text, mode)`. -/
inductive Mode where
  | rule : Mode
  | llm : Mode
  | default : Mode
deriving DecidableEq

/-- The configuration surface injected into the orchestrator: default backend
selection and the fallback-on-backend-failure policy. -/
structure Config where
  useLLMDefault : Bool
  fallbackEnabled : Bool
deriving DecidableEq

/-- Modelled from the spec: the orchestrator. `resp` stands for the LLM
response obtained when the structured backend is invoked (`none` when its
body was not valid JSON). On a structured-backend failure the configured
fallback policy either propagates the error or returns the rule backend's
result for the same text. -/
def orchestrate (cfg : Config) (mode : Mode) (text : String) (resp : Option Json) :
    Except ExtractionError ExtractionResult :=
  let useLLM :=
    match mode with
    | .rule => false
    | .llm => true
    | .default => cfg.useLLMDefault
  if useLLM then
    match structuredExtract resp with
    | .ok r => .ok r
    | .error e => if cfg.fallbackEnabled then .ok (extractRule text) else .error e
  else
    .ok (extractRule text)

/-! ## Reconciliation engine (modelled from the spec, §4.5) -/

/-- A persisted Tag row: id and name. -/
structure TagRow where
  id : Nat
  name : List Char
deriving DecidableEq, Repr

/-- A persisted ActionItem row: id, description, and the originating note. -/
structure ItemRow where
  id : Nat
  descr : List Char
  noteId : Nat
deriving DecidableEq, Repr

/-- The persistent store visible to the reconciliation engine: Tag rows,
note–tag attachments, ActionItem rows, and the id counters. -/
structure Store where
  tags : List TagRow
  noteTags : List (Nat × Nat)
  items : List ItemRow
  nextTagId : Nat
  nextItemId : Nat
deriving DecidableEq, Repr

/-- Modelled from the spec: the case-insensitive Tag lookup. -/
def findTag (s : Store) (name : List Char) : Option TagRow :=
  s.tags.find? (fun t => foldChars t.name == foldChars name)

/-- Modelled from the spec: upsert-and-attach for one tag name — look the
name up case-insensitively, create a Tag row only when no row matches, and
attach the resolved row to the note only when not already attached. Returns
the new store, the resolved row, and whether it was created / newly
attached. -/
def upsertTag (note : Nat) (name : List Char) (s : Store) :
    Store × TagRow × Bool × Bool :=
  match findTag s name with
  | some t =>
    if (note, t.id) ∈ s.noteTags then (s, t, false, false)
    else ({ s with noteTags := s.noteTags ++ [(note, t.id)] }, t, false, true)
  | none =>
    let t : TagRow := { id := s.nextTagId, name := name }
    let s1 : Store := { s with tags := s.tags ++ [t], nextTagId := s.nextTagId + 1 }
    if (note, t.id) ∈ s1.noteTags then (s1, t, true, false)
    else ({ s1 with noteTags := s1.noteTags ++ [(note, t.id)] }, t, true, true)

/-- Modelled from the spec: process the result's tag names in order,
collecting the created and the newly attached rows. -/
def applyTags (note : Nat) : List (List Char) → Store →
    Store × List TagRow × List TagRow
  | [], s => (s, [], [])
  | n :: ns, s =>
    let u := upsertTag note n s
    let rest := applyTags note ns u.1
    (rest.1,
     (if u.2.2.1 then [u.2.1] else []) ++ rest.2.1,
     (if u.2.2.2 then [u.2.1] else []) ++ rest.2.2)

/-- Modelled from the spec: an action-item description is valid when it is
non-blank after trimming and at most 1000 characters long. -/
def validDescr (d : List Char) : Bool :=
  !(trimChars d).isEmpty && d.length ≤ 1000

/-- The apply-stage error taxonomy that the model can exhibit: a
`ValidationError` on an action-item description. -/
inductive ApplyError where
  | validation (descr : List Char) : ApplyError
deriving DecidableEq, Repr

/-- Modelled from the spec: create one ActionItem row per description,
failing with `ValidationError` on the first invalid description. -/
def applyItems (note : Nat) : List (List Char) → Store →
    Except ApplyError (Store × List ItemRow)
  | [], s => .ok (s, [])
  | d :: ds, s =>
    if validDescr d then
      let row : ItemRow := { id := s.nextItemId, descr := d, noteId := note }
      match applyItems note ds
          { s with items := s.items ++ [row], nextItemId := s.nextItemId + 1 } with
      | .ok (s2, rows) => .ok (s2, row :: rows)
      | .error e => .error e
    else .error (.validation d)

/-- The summary returned by a successful apply: created tags, newly attached
tags, created action items. -/
structure Summary where
  created_tags : List TagRow
  attached_tags : List TagRow
  created_action_items : List ItemRow
deriving DecidableEq, Repr

/-- Modelled from the spec: `apply(noteId, result)` — all tag
lookups/creates/attaches then all action-item creates as one transactional
unit; an error carries no store, so a failed call commits nothing. -/
def apply (note : Nat) (r : ExtractionResult) (s : Store) :
    Except ApplyError (Store × Summary) :=
  let ta := applyTags note (r.tags.map String.toList) s
  match applyItems note (r.action_items.map String.toList) ta.1 with
  | .ok (s2, rows) => .ok (s2, ⟨ta.2.1, ta.2.2, rows⟩)
  | .error e => .error e

/-- The store visible after an `apply` call: the new store on success, the
unchanged prior store after the transaction rolled back. -/
def postApply (note : Nat) (r : ExtractionResult) (s : Store) : Store :=
  match apply note r s with
  | .ok (s', _) => s'
  | .error _ => s

/-- Whether an `apply` call succeeds. -/
def applyOk (note : Nat) (r : ExtractionResult) (s : Store) : Bool :=
  match apply note r s with
  | .ok _ => true
  | .error _ => false

/-- The ids of the tags attached to a note in a store — the note's tag set. -/
def noteTagIds (note : Nat) (s : Store) : List Nat :=
  (s.noteTags.filter (fun p => p.1 == note)).map (·.2)

/-- The Tag-row uniqueness invariant: no two Tag rows have names equal under
case-folding. -/
def tagNamesDistinct (s : Store) : Prop :=
  (s.tags.map (fun t => foldChars t.name)).Nodup

/-- A tag name is settled for a note in a store when the case-insensitive
lookup resolves to a Tag row that is already attached to the note — the
situation in which the upsert-and-attach step is a no-op. -/
def settled (note : Nat) (s : Store) (n : List Char) : Prop :=
  ∃ t, findTag s n = some t ∧ (note, t.id) ∈ s.noteTags

/-- One store extends another: the Tag rows and the attachments of the first
form a prefix of those of the second. -/
def growsTo (s s' : Store) : Prop :=
  (∃ l, s'.tags = s.tags ++ l) ∧ (∃ l, s'.noteTags = s.noteTags ++ l)

end NotesPipeline

namespace Frontend

/-! ## NotesList tag filtering (embedded from
`src/unnamed/part_005`, `loadNotes`) -/

/-- A tag object as the frontend receives it. -/
structure TagF where
  id : Nat
  name : String
deriving DecidableEq, Repr

/-- A note object as the frontend receives it (the fields the filter reads). -/
structure NoteF where
  id : Nat
  title : String
  content : String
  tags : List TagF
deriving DecidableEq, Repr

/-- The filter mode toggle of the tag filter UI. -/
inductive FilterMode where
  | AND : FilterMode
  | OR : FilterMode
deriving DecidableEq, Repr

/-- Embedded from `NotesList.loadNotes`: with a non-empty tag selection the
displayed list is `allNotes.filter(...)` — in AND mode the note must carry
every selected tag id, in OR mode at least one. -/
def filterNotesByTags (allNotes : List NoteF) (selectedTagIds : List Nat)
    (filterMode : FilterMode) : List NoteF :=
  allNotes.filter (fun note =>
    let noteTagIds := note.tags.map (·.id)
    match filterMode with
    | .AND => selectedTagIds.all (fun tagId => noteTagIds.contains tagId)
    | .OR => selectedTagIds.any (fun tagId => noteTagIds.contains tagId))

/-! ## getTagColor (embedded from
`src/week5/frontend/ui/src/components/notes/NoteCard.tsx`) -/

/-- JavaScript's ToInt32 conversion: reduce an exact integer into the signed
32-bit range. -/
def toInt32 (n : Int) : Int :=
  let m := n.emod 4294967296
  if m < 2147483648 then m else m - 4294967296

/-- One step of the hash loop `hash = charCode + ((hash << 5) - hash)`: the
shift coerces to int32 and wraps, the outer sum and difference are exact. -/
def hashStep (h : Int) (c : Nat) : Int :=
  (c : Int) + (toInt32 (toInt32 h * 32) - h)

/-- The hash of a name, folding over its UTF-16 code units. -/
def hashName (units : List Nat) : Int :=
  units.foldl hashStep 0

/-- Embedded from `getTagColor`: `Math.abs(hash % 360)`. -/
def hueOf (h : Int) : Nat :=
  h.natAbs % 360

/-- Embedded from `getTagColor`: `60 + (Math.abs(hash >> 8) % 20)`; the shift
is the arithmetic right shift of the int32 view, i.e. floor division. -/
def satOf (h : Int) : Nat :=
  60 + ((toInt32 h).fdiv 256).natAbs % 20

/-- Embedded from `getTagColor`: `85 + (Math.abs(hash >> 16) % 10)`. -/
def lightOf (h : Int) : Nat :=
  85 + ((toInt32 h).fdiv 65536).natAbs % 10

/-- Render an `hsl(h, s%, l%)` color string. -/
def renderHSL (h s l : Nat) : String :=
  "hsl(" ++ toString h ++ ", " ++ toString s ++ "%, " ++ toString l ++ "%)"

/-- Embedded from `getTagColor` in `NoteCard.tsx`: hash the tag name, then
derive hue, saturation and lightness. A name is represented by its list of
UTF-16 code units (`charCodeAt` values). -/
def getTagColor (name : List Nat) : String :=
  let hash := hashName name
  renderHSL (hueOf hash) (satOf hash) (lightOf hash)

end Frontend

namespace NotesPipeline

/-! ## Lemmas about first-occurrence deduplication -/

theorem firstDedupByAux_sublist (key : List Char → List Char)
    (seen : List (List Char)) (l : List (List Char)) :
    (firstDedupByAux key seen l).Sublist l := by
  induction l generalizing seen with
  | nil => simp [firstDedupByAux]
  | cons x xs ih =>
    by_cases h : key x ∈ seen
    · simp only [firstDedupByAux, if_pos h]
      exact (ih seen).trans (List.sublist_cons_self x xs)
    · simp only [firstDedupByAux, if_neg h]
      exact (ih (key x :: seen)).cons₂ x

theorem firstDedupByAux_key_not_seen (key : List Char → List Char)
    (seen : List (List Char)) (l : List (List Char)) (t : List Char)
    (ht : t ∈ firstDedupByAux key seen l) : key t ∉ seen := by
  induction l generalizing seen with
  | nil => simp [firstDedupByAux] at ht
  | cons x xs ih =>
    by_cases h : key x ∈ seen
    · simp only [firstDedupByAux, if_pos h] at ht
      exact ih seen ht
    · simp only [firstDedupByAux, if_neg h, List.mem_cons] at ht
      rcases ht with rfl | ht
      · exact h
      · have := ih (key x :: seen) ht
        exact fun hc => this (List.mem_cons_of_mem _ hc)

theorem firstDedupByAux_keys_nodup (key : List Char → List Char)
    (seen : List (List Char)) (l : List (List Char)) :
    ((firstDedupByAux key seen l).map key).Nodup := by
  induction l generalizing seen with
  | nil => simp [firstDedupByAux]
  | cons x xs ih =>
    by_cases h : key x ∈ seen
    · simp only [firstDedupByAux, if_pos h]
      exact ih seen
    · simp only [firstDedupByAux, if_neg h, List.map_cons, List.nodup_cons]
      refine ⟨?_, ih (key x :: seen)⟩
      intro hc
      rcases List.mem_map.mp hc with ⟨t, ht, hkt⟩
      have := firstDedupByAux_key_not_seen key (key x :: seen) xs t ht
      exact this (hkt ▸ List.mem_cons_self _ _)

theorem firstDedupByAux_complete (key : List Char → List Char)
    (seen : List (List Char)) (l : List (List Char)) (x : List Char)
    (hx : x ∈ l) :
    key x ∈ seen ∨ key x ∈ (firstDedupByAux key seen l).map key := by
  induction l generalizing seen with
  | nil => simp at hx
  | cons y ys ih =>
    rcases List.mem_cons.mp hx with rfl | hx
    · by_cases h : key x ∈ seen
      · exact Or.inl h
      · right
        simp [firstDedupByAux, if_neg h]
    · by_cases h : key y ∈ seen
      · simpa [firstDedupByAux, if_pos h] using ih seen hx
      · rcases ih (key y :: seen) hx with hmem | hmem
        · rcases List.mem_cons.mp hmem with heq | hseen
          · right
            simp [firstDedupByAux, if_neg h, heq]
          · exact Or.inl hseen
        · right
          simp only [firstDedupByAux, if_neg h, List.map_cons, List.mem_cons]
          exact Or.inr hmem

theorem firstDedupByAux_find? (key : List Char → List Char)
    (seen : List (List Char)) (l : List (List Char)) (t : List Char)
    (ht : t ∈ firstDedupByAux key seen l) :
    l.find? (fun s => key s == key t) = some t := by
  induction l generalizing seen with
  | nil => simp [firstDedupByAux] at ht
  | cons x xs ih =>
    by_cases h : key x ∈ seen
    · simp only [firstDedupByAux, if_pos h] at ht
      have hne : key x ≠ key t := by
        intro hc
        exact firstDedupByAux_key_not_seen key seen xs t ht (hc ▸ h)
      rw [List.find?_cons_of_neg _ (by simpa using hne)]
      exact ih seen ht
    · simp only [firstDedupByAux, if_neg h, List.mem_cons] at ht
      rcases ht with rfl | ht
      · exact List.find?_cons_of_pos _ (by simp)
      · have hns := firstDedupByAux_key_not_seen key (key x :: seen) xs t ht
        have hne : key x ≠ key t := fun hc => hns (hc ▸ List.mem_cons_self _ _)
        rw [List.find?_cons_of_neg _ (by simpa using hne)]
        exact ih (key x :: seen) ht

theorem firstDedupBy_sublist (key : List Char → List Char)
    (l : List (List Char)) : (firstDedupBy key l).Sublist l :=
  firstDedupByAux_sublist key [] l

theorem firstDedupBy_keys_nodup (key : List Char → List Char)
    (l : List (List Char)) : ((firstDedupBy key l).map key).Nodup :=
  firstDedupByAux_keys_nodup key [] l

theorem firstDedupBy_complete (key : List Char → List Char)
    (l : List (List Char)) (x : List Char) (hx : x ∈ l) :
    key x ∈ (firstDedupBy key l).map key := by
  rcases firstDedupByAux_complete key [] l x hx with h | h
  · simp at h
  · exact h

theorem firstDedupBy_find? (key : List Char → List Char)
    (l : List (List Char)) (t : List Char) (ht : t ∈ firstDedupBy key l) :
    l.find? (fun s => key s == key t) = some t :=
  firstDedupByAux_find? key [] l t ht

/-! ## Lemmas about whitespace-only input -/

theorem trimChars_eq_nil (l : List Char)
    (h : ∀ c ∈ l, c.isWhitespace = true) : trimChars l = [] := by
  have hdrop : l.dropWhile Char.isWhitespace = [] := by
    induction l with
    | nil => rfl
    | cons c cs ih =>
      rw [List.dropWhile_cons_of_pos (by simpa using h c (List.mem_cons_self _ _))]
      exact ih (fun x hx => h x (List.mem_cons_of_mem _ hx))
  simp [trimChars, hdrop]

theorem splitLinesAux_all_ws (cs acc : List Char)
    (hcs : ∀ c ∈ cs, c.isWhitespace = true)
    (hacc : ∀ c ∈ acc, c.isWhitespace = true) :
    ∀ l ∈ splitLinesAux cs acc, ∀ c ∈ l, c.isWhitespace = true := by
  induction cs generalizing acc with
  | nil =>
    intro l hl c hc
    simp only [splitLinesAux, List.mem_singleton] at hl
    subst hl
    exact hacc c (List.mem_reverse.mp hc)
  | cons d ds ih =>
    intro l hl c hc
    by_cases hd : d == '\n'
    · simp only [splitLinesAux, if_pos hd, List.mem_cons] at hl
      rcases hl with rfl | hl
      · exact hacc c (List.mem_reverse.mp hc)
      · exact ih [] (fun x hx => hcs x (List.mem_cons_of_mem _ hx)) (by simp) l hl c hc
    · simp only [splitLinesAux, if_neg hd] at hl
      refine ih (d :: acc) (fun x hx => hcs x (List.mem_cons_of_mem _ hx)) ?_ l hl c hc
      intro x hx
      rcases List.mem_cons.mp hx with rfl | hx
      · exact hcs x (List.mem_cons_self _ _)
      · exact hacc x hx

theorem normalizeLines_all_ws (cs : List Char)
    (h : ∀ c ∈ cs, c.isWhitespace = true) : normalizeLines cs = [] := by
  rw [normalizeLines, List.filter_eq_nil_iff]
  intro a ha
  rcases List.mem_map.mp ha with ⟨l, hl, rfl⟩
  have : trimChars l = [] :=
    trimChars_eq_nil l (splitLinesAux_all_ws cs [] h (by simp) l hl)
  simp [this]

theorem tagScanAux_no_hash (cs : List Char)
    (h : ∀ c ∈ cs, c ≠ '#') : tagScanAux cs none = [] := by
  induction cs with
  | nil => rfl
  | cons c rest ih =>
    have : (c == '#') = false := by
      simpa using h c (List.mem_cons_self _ _)
    simp only [tagScanAux, this, Bool.false_eq_true, if_false]
    exact ih (fun x hx => h x (List.mem_cons_of_mem _ hx))

/-! ## Claims about the rule backend -/

/-- Claim C4: on the input `"- [ ] Buy milk\nTODO: call mom\nMeeting notes
#errands"` the rule backend extracts the tag `errands` and the action items
`Buy milk` and `call mom`, stripping the checkbox marker and the `TODO:`
keyword from the returned strings. -/
theorem claim_C4 :
    (extractRule "- [ ] Buy milk\nTODO: call mom\nMeeting notes #errands").tags
      = ["errands"] ∧
    (extractRule "- [ ] Buy milk\nTODO: call mom\nMeeting notes #errands").action_items
      = ["Buy milk", "call mom"] := by
  constructor <;> decide

/-- Claim C8: on the input `"Implement retry logic\nDeploy to staging"` the
rule backend recognizes both `Implement` and `Deploy` as imperative first
words, returning each whole line as an action item and no tags. -/
theorem claim_C8 :
    (extractRule "Implement retry logic\nDeploy to staging").action_items
      = ["Implement retry logic", "Deploy to staging"] ∧
    (extractRule "Implement retry logic\nDeploy to staging").tags = [] := by
  constructor <;> decide

/-- Claim C7: for every empty or whitespace-only input text, the rule backend
returns empty tag and action-item lists and raises no error — normalization
yields an empty line list and an empty tag-token list. -/
theorem claim_C7 (text : String)
    (h : ∀ c ∈ text.toList, c.isWhitespace = true) :
    extractRule text = { tags := [], action_items := [] } ∧
    normalizeLines text.toList = [] ∧ tagScan text.toList = [] := by
  have hscan : tagScan text.toList = [] := by
    refine tagScanAux_no_hash _ (fun c hc => ?_)
    intro hcEq
    have := h c hc
    rw [hcEq] at this
    simp [Char.isWhitespace] at this
  have hlines : normalizeLines text.toList = [] := normalizeLines_all_ws _ h
  refine ⟨?_, hlines, hscan⟩
  have hscan' : tagScan text.data = [] := hscan
  have hlines' : normalizeLines text.data = [] := hlines
  simp [extractRule, hscan, hscan', actionCandidates, hlines, hlines',
    firstDedupBy, firstDedupByAux]

/-- Witness for claim C7 at the whitespace-only input `" "`. -/
theorem claim_C7_witness :
    extractRule " " = { tags := [], action_items := [] } :=
  (claim_C7 " " (by decide)).1

/-- Claim C5: for every text, the rule backend's tag list is the
case-insensitive first-occurrence deduplication of the scanned hashtag
tokens — its case-folded names are pairwise distinct, every scanned token's
case-folded name is represented, each returned name is the first-seen casing
of its token (the first scanned token with its case-folding), and the order
is the order of first appearance (a sublist of the scan); the action-item
list is the exact-equality deduplication of the per-line candidates,
preserving first occurrence order. -/
theorem claim_C5 (text : String) :
    (extractRule text).tags
      = (firstDedupBy foldChars (tagScan text.toList)).map List.asString ∧
    (firstDedupBy foldChars (tagScan text.toList)).Sublist (tagScan text.toList) ∧
    ((firstDedupBy foldChars (tagScan text.toList)).map foldChars).Nodup ∧
    (∀ s ∈ tagScan text.toList,
      foldChars s ∈ (firstDedupBy foldChars (tagScan text.toList)).map foldChars) ∧
    (∀ t ∈ firstDedupBy foldChars (tagScan text.toList),
      (tagScan text.toList).find? (fun s => foldChars s == foldChars t) = some t) ∧
    (extractRule text).action_items
      = (firstDedupBy id (actionCandidates text.toList)).map List.asString ∧
    (firstDedupBy id (actionCandidates text.toList)).Sublist
      (actionCandidates text.toList) ∧
    (firstDedupBy id (actionCandidates text.toList)).Nodup ∧
    (∀ c ∈ actionCandidates text.toList,
      c ∈ firstDedupBy id (actionCandidates text.toList)) := by
  refine ⟨rfl, firstDedupBy_sublist _ _, firstDedupBy_keys_nodup _ _,
    fun s hs => firstDedupBy_complete _ _ s hs,
    fun t ht => firstDedupBy_find? _ _ t ht, rfl,
    firstDedupBy_sublist _ _, ?_, fun c hc => ?_⟩
  · have := firstDedupBy_keys_nodup id (actionCandidates text.toList)
    simpa using this
  · have := firstDedupBy_complete id (actionCandidates text.toList) c hc
    simpa using this

/-- Witness for claim C5 at a concrete text with case-insensitively duplicate
hashtags. -/
theorem claim_C5_witness :
    foldChars "Work".toList ∈
      (firstDedupBy foldChars (tagScan "#Work and #work and #play".toList)).map
        foldChars :=
  (claim_C5 "#Work and #work and #play").2.2.2.1 "Work".toList (by decide)

/-! ## Claim about the structured backend and the fallback policy -/

/-- Claim C6: when the structured backend's response is not valid JSON or
does not match the expected schema (`schemaParse` rejects it), `extract` in
llm mode propagates `ExtractionParseError` under a disabled fallback policy,
and returns exactly the rule backend's result for the identical text under an
enabled fallback policy. -/
theorem claim_C6 (text : String) (resp : Option Json) (cfg : Config)
    (h : schemaParse resp = none) :
    (cfg.fallbackEnabled = false →
      orchestrate cfg Mode.llm text resp = .error ExtractionError.parseError) ∧
    (cfg.fallbackEnabled = true →
      orchestrate cfg Mode.llm text resp = .ok (extractRule text)) := by
  constructor <;> intro hf <;>
    simp [orchestrate, structuredExtract, h, hf]

/-- Witness for claim C6: a non-JSON response with fallback disabled
propagates the parse error. -/
theorem claim_C6_witness :
    orchestrate { useLLMDefault := true, fallbackEnabled := false }
        Mode.llm "TODO: call mom" none = .error ExtractionError.parseError :=
  (claim_C6 "TODO: call mom" none
    { useLLMDefault := true, fallbackEnabled := false } rfl).1 rfl

/-! ## Lemmas about the reconciliation engine -/

theorem find?_append_some {α : Type} (p : α → Bool) (l₁ l₂ : List α) (x : α)
    (h : l₁.find? p = some x) : (l₁ ++ l₂).find? p = some x := by
  induction l₁ with
  | nil => simp [List.find?] at h
  | cons a l ih =>
    rw [List.cons_append]
    cases hp : p a with
    | true =>
      rw [List.find?_cons_of_pos _ hp] at h ⊢
      exact h
    | false =>
      rw [List.find?_cons_of_neg _ (by simp [hp])] at h ⊢
      exact ih h

theorem find?_append_none {α : Type} (p : α → Bool) (l₁ l₂ : List α)
    (h : l₁.find? p = none) : (l₁ ++ l₂).find? p = l₂.find? p := by
  induction l₁ with
  | nil => simp
  | cons a l ih =>
    cases hp : p a with
    | true =>
      rw [List.find?_cons_of_pos _ hp] at h
      cases h
    | false =>
      rw [List.find?_cons_of_neg _ (by simp [hp])] at h
      rw [List.cons_append, List.find?_cons_of_neg _ (by simp [hp])]
      exact ih h

theorem growsTo_refl (s : Store) : growsTo s s :=
  ⟨⟨[], by simp⟩, ⟨[], by simp⟩⟩

theorem growsTo_trans {s1 s2 s3 : Store} (h1 : growsTo s1 s2)
    (h2 : growsTo s2 s3) : growsTo s1 s3 := by
  obtain ⟨⟨a, ha⟩, ⟨b, hb⟩⟩ := h1
  obtain ⟨⟨c, hc⟩, ⟨d, hd⟩⟩ := h2
  exact ⟨⟨a ++ c, by rw [hc, ha, List.append_assoc]⟩,
         ⟨b ++ d, by rw [hd, hb, List.append_assoc]⟩⟩

theorem findTag_mono {s s' : Store} {n : List Char} {t : TagRow}
    (hg : growsTo s s') (h : findTag s n = some t) : findTag s' n = some t := by
  obtain ⟨⟨l, hl⟩, _⟩ := hg
  unfold findTag at h ⊢
  rw [hl]
  exact find?_append_some _ _ _ _ h

theorem settled_mono {note : Nat} {s s' : Store} {n : List Char}
    (hg : growsTo s s') (h : settled note s n) : settled note s' n := by
  obtain ⟨t, hf, hm⟩ := h
  obtain ⟨l, hl⟩ := hg.2
  exact ⟨t, findTag_mono hg hf, by rw [hl]; exact List.mem_append_left _ hm⟩

theorem settled_congr {note : Nat} {s s' : Store} {n : List Char}
    (ht : s'.tags = s.tags) (hnt : s'.noteTags = s.noteTags)
    (h : settled note s n) : settled note s' n := by
  obtain ⟨t, hf, hm⟩ := h
  refine ⟨t, ?_, hnt ▸ hm⟩
  unfold findTag at hf ⊢
  rw [ht]
  exact hf

theorem upsertTag_grows (note : Nat) (n : List Char) (s : Store) :
    growsTo s (upsertTag note n s).1 := by
  unfold upsertTag
  cases hf : findTag s n with
  | some t =>
    by_cases hm : (note, t.id) ∈ s.noteTags
    · simp only [if_pos hm]
      exact growsTo_refl s
    · simp only [if_neg hm]
      exact ⟨⟨[], by simp⟩, ⟨[(note, t.id)], rfl⟩⟩
  | none =>
    by_cases hm : (note, s.nextTagId) ∈ s.noteTags
    · simp only [if_pos hm]
      exact ⟨⟨[⟨s.nextTagId, n⟩], rfl⟩, ⟨[], by simp⟩⟩
    · simp only [if_neg hm]
      exact ⟨⟨[⟨s.nextTagId, n⟩], rfl⟩, ⟨[(note, s.nextTagId)], rfl⟩⟩

theorem upsertTag_settled (note : Nat) (n : List Char) (s : Store) :
    settled note (upsertTag note n s).1 n := by
  unfold upsertTag
  cases hf : findTag s n with
  | some t =>
    by_cases hm : (note, t.id) ∈ s.noteTags
    · simp only [if_pos hm]
      exact ⟨t, hf, hm⟩
    · simp only [if_neg hm]
      exact ⟨t, hf, by simp⟩
  | none =>
    have hfind :
        findTag
          ({ s with
              tags := s.tags ++ [({ id := s.nextTagId, name := n } : TagRow)]
              nextTagId := s.nextTagId + 1 }) n
          = some { id := s.nextTagId, name := n } := by
      unfold findTag at hf ⊢
      rw [find?_append_none _ _ _ hf]
      simp [List.find?]
    by_cases hm : (note, s.nextTagId) ∈ s.noteTags
    · simp only [if_pos hm]
      exact ⟨⟨s.nextTagId, n⟩, hfind, hm⟩
    · simp only [if_neg hm]
      exact ⟨⟨s.nextTagId, n⟩, hfind, by simp⟩

theorem upsertTag_noop (note : Nat) (n : List Char) (s : Store) (t : TagRow)
    (hf : findTag s n = some t) (hm : (note, t.id) ∈ s.noteTags) :
    upsertTag note n s = (s, t, false, false) := by
  simp [upsertTag, hf, hm]

theorem applyTags_grows (note : Nat) (ns : List (List Char)) (s : Store) :
    growsTo s (applyTags note ns s).1 := by
  induction ns generalizing s with
  | nil => exact growsTo_refl s
  | cons m ms ih =>
    exact growsTo_trans (upsertTag_grows note m s) (ih (upsertTag note m s).1)

theorem applyTags_settles (note : Nat) (ns : List (List Char)) (s : Store) :
    ∀ n ∈ ns, settled note (applyTags note ns s).1 n := by
  induction ns generalizing s with
  | nil => simp
  | cons m ms ih =>
    intro n hn
    rcases List.mem_cons.mp hn with rfl | hn
    · exact settled_mono (applyTags_grows note ms (upsertTag note n s).1)
        (upsertTag_settled note n s)
    · exact ih (upsertTag note m s).1 n hn

theorem applyTags_noop (note : Nat) (ns : List (List Char)) (s : Store)
    (h : ∀ n ∈ ns, settled note s n) : applyTags note ns s = (s, [], []) := by
  induction ns with
  | nil => rfl
  | cons m ms ih =>
    obtain ⟨t, hf, hm⟩ := h m (List.mem_cons_self _ _)
    have hu := upsertTag_noop note m s t hf hm
    have hrest := ih (fun n hn => h n (List.mem_cons_of_mem _ hn))
    simp [applyTags, hu, hrest]

theorem applyItems_ok_fields (note : Nat) (ds : List (List Char)) (s s2 : Store)
    (rows : List ItemRow) (h : applyItems note ds s = .ok (s2, rows)) :
    s2.tags = s.tags ∧ s2.noteTags = s.noteTags := by
  induction ds generalizing s s2 rows with
  | nil =>
    simp only [applyItems, Except.ok.injEq, Prod.mk.injEq] at h
    rw [← h.1]
    exact ⟨rfl, rfl⟩
  | cons d ds ih =>
    simp only [applyItems] at h
    by_cases hv : validDescr d = true
    · rw [if_pos hv] at h
      cases hrec : applyItems note ds
          { s with items := s.items ++ [{ id := s.nextItemId, descr := d, noteId := note }],
                   nextItemId := s.nextItemId + 1 } with
      | ok p =>
        obtain ⟨s3, rows3⟩ := p
        rw [hrec] at h
        simp only [Except.ok.injEq, Prod.mk.injEq] at h
        obtain ⟨rfl, -⟩ := h
        have hf := ih _ _ _ hrec
        exact hf
      | error e =>
        rw [hrec] at h
        cases h
    · rw [if_neg hv] at h
      cases h

theorem applyItems_valid_of_ok (note : Nat) (ds : List (List Char)) (s s2 : Store)
    (rows : List ItemRow) (h : applyItems note ds s = .ok (s2, rows)) :
    ∀ d ∈ ds, validDescr d = true := by
  induction ds generalizing s s2 rows with
  | nil => simp
  | cons d ds ih =>
    intro x hx
    simp only [applyItems] at h
    by_cases hv : validDescr d = true
    · rw [if_pos hv] at h
      rcases List.mem_cons.mp hx with rfl | hx
      · exact hv
      · cases hrec : applyItems note ds
            { s with items := s.items ++ [{ id := s.nextItemId, descr := d, noteId := note }],
                     nextItemId := s.nextItemId + 1 } with
        | ok p =>
          obtain ⟨s3, rows3⟩ := p
          exact ih _ _ _ hrec x hx
        | error e =>
          rw [hrec] at h
          cases h
    · rw [if_neg hv] at h
      cases h

theorem applyItems_ok_of_valid (note : Nat) (ds : List (List Char)) (s : Store)
    (h : ∀ d ∈ ds, validDescr d = true) :
    ∃ s2 rows, applyItems note ds s = .ok (s2, rows) := by
  induction ds generalizing s with
  | nil => exact ⟨s, [], rfl⟩
  | cons d ds ih =>
    have hv : validDescr d = true := h d (List.mem_cons_self _ _)
    obtain ⟨s2, rows, hrec⟩ :=
      ih { s with items := s.items ++ [{ id := s.nextItemId, descr := d, noteId := note }],
                  nextItemId := s.nextItemId + 1 }
        (fun x hx => h x (List.mem_cons_of_mem _ hx))
    refine ⟨s2, { id := s.nextItemId, descr := d, noteId := note } :: rows, ?_⟩
    simp only [applyItems, if_pos hv, hrec]

theorem applyItems_error_iff (note : Nat) (ds : List (List Char)) (s : Store) :
    (∃ e, applyItems note ds s = .error e) ↔ ∃ d ∈ ds, validDescr d = false := by
  constructor
  · rintro ⟨e, he⟩
    by_contra hall
    push_neg at hall
    have hv : ∀ d ∈ ds, validDescr d = true := by
      intro d hd
      have := hall d hd
      simpa using this
    obtain ⟨s2, rows, hok⟩ := applyItems_ok_of_valid note ds s hv
    rw [hok] at he
    cases he
  · rintro ⟨d, hd, hdv⟩
    cases hr : applyItems note ds s with
    | ok p =>
      obtain ⟨s2, rows⟩ := p
      have := applyItems_valid_of_ok note ds s s2 rows hr d hd
      rw [this] at hdv
      cases hdv
    | error e => exact ⟨e, rfl⟩

/-! ## Claims about the apply operation -/

/-- Claim C2: `apply` is atomic — it fails exactly when some action-item
description violates validation, and after a failed call the persistent
store is exactly as it was before: no Tag row, note–tag attachment, or
ActionItem row from that call remains visible. -/
theorem claim_C2 (note : Nat) (r : ExtractionResult) (s : Store) :
    (applyOk note r s = false ↔
      ∃ d ∈ r.action_items, validDescr d.toList = false) ∧
    (applyOk note r s = false → postApply note r s = s) := by
  constructor
  · cases hi : applyItems note (r.action_items.map String.toList)
        (applyTags note (r.tags.map String.toList) s).1 with
    | ok p =>
      obtain ⟨s2, rows⟩ := p
      have hOk : applyOk note r s = true := by
        simp [applyOk, apply, hi]
      rw [hOk]
      simp only [Bool.true_eq_false, false_iff, not_exists]
      intro d hd
      have hval := applyItems_valid_of_ok note _ _ _ _ hi d.toList
        (List.mem_map_of_mem _ hd.1)
      have h2 := hd.2
      rw [hval] at h2
      cases h2
    | error e =>
      have hFail : applyOk note r s = false := by
        simp [applyOk, apply, hi]
      rw [hFail]
      simp only [true_iff]
      have := (applyItems_error_iff note (r.action_items.map String.toList)
        (applyTags note (r.tags.map String.toList) s).1).mp ⟨e, hi⟩
      obtain ⟨d', hd', hdv⟩ := this
      rcases List.mem_map.mp hd' with ⟨d, hd, rfl⟩
      exact ⟨d, hd, hdv⟩
  · intro hfail
    cases ha : apply note r s with
    | ok p =>
      rw [applyOk, ha] at hfail
      cases hfail
    | error e =>
      rw [postApply, ha]

/-- Witness for claim C2: a result carrying a blank action item makes
`apply` fail and leaves the empty store untouched. -/
theorem claim_C2_witness :
    postApply 1 { tags := ["Work"], action_items := ["  "] }
        { tags := [], noteTags := [], items := [], nextTagId := 0, nextItemId := 0 }
      = { tags := [], noteTags := [], items := [], nextTagId := 0, nextItemId := 0 } :=
  (claim_C2 1 { tags := ["Work"], action_items := ["  "] }
    { tags := [], noteTags := [], items := [], nextTagId := 0, nextItemId := 0 }).2
    (by decide)

theorem apply_ok_fields (note : Nat) (r : ExtractionResult) (s s' : Store)
    (sum : Summary) (ha : apply note r s = .ok (s', sum)) :
    s'.tags = (applyTags note (r.tags.map String.toList) s).1.tags ∧
    s'.noteTags = (applyTags note (r.tags.map String.toList) s).1.noteTags ∧
    (∀ d ∈ r.action_items, validDescr d.toList = true) := by
  cases hi : applyItems note (r.action_items.map String.toList)
      (applyTags note (r.tags.map String.toList) s).1 with
  | error e =>
    simp only [apply] at ha
    rw [hi] at ha
    cases ha
  | ok p =>
    obtain ⟨s2, rows⟩ := p
    simp only [apply] at ha
    rw [hi] at ha
    simp only [Except.ok.injEq, Prod.mk.injEq] at ha
    obtain ⟨rfl, -⟩ := ha
    have hfields := applyItems_ok_fields note _ _ _ _ hi
    refine ⟨hfields.1, hfields.2, ?_⟩
    intro d hd
    exact applyItems_valid_of_ok note _ _ _ _ hi d.toList
      (List.mem_map_of_mem _ hd)

theorem apply_settled_noop (note : Nat) (r : ExtractionResult) (s : Store)
    (htags : ∀ n ∈ r.tags, settled note s n.toList)
    (hitems : ∀ d ∈ r.action_items, validDescr d.toList = true) :
    ∃ s' sum, apply note r s = .ok (s', sum) ∧ s'.tags = s.tags ∧
      s'.noteTags = s.noteTags := by
  have hTags : applyTags note (r.tags.map String.toList) s = (s, [], []) := by
    apply applyTags_noop
    intro n hn
    rcases List.mem_map.mp hn with ⟨d, hd, rfl⟩
    exact htags d hd
  have hv : ∀ d ∈ r.action_items.map String.toList, validDescr d = true := by
    intro d hd
    rcases List.mem_map.mp hd with ⟨d0, hd0, rfl⟩
    exact hitems d0 hd0
  obtain ⟨s2, rows, hok⟩ :=
    applyItems_ok_of_valid note (r.action_items.map String.toList) s hv
  refine ⟨s2, ⟨[], [], rows⟩, ?_,
    (applyItems_ok_fields note _ _ _ _ hok).1,
    (applyItems_ok_fields note _ _ _ _ hok).2⟩
  simp only [apply, hTags]
  rw [hok]

/-- Claim C1: applying `extract(text)` twice to the same note leaves the
same final tag state as applying it once — the second call creates no Tag
row and no note–tag attachment, and the note's tag set is unchanged; and
applying a result whose tag names are all settled (a Tag row with the same
case-folded name already attached) succeeds without error and leaves the
Tag rows, the attachments, and the note's tag set unchanged. -/
theorem claim_C1 :
    (∀ (note : Nat) (text : String) (s s1 : Store) (sum1 : Summary),
      apply note (extractRule text) s = .ok (s1, sum1) →
      ∃ s2 sum2, apply note (extractRule text) s1 = .ok (s2, sum2) ∧
        s2.tags = s1.tags ∧ s2.noteTags = s1.noteTags ∧
        noteTagIds note s2 = noteTagIds note s1) ∧
    (∀ (note : Nat) (r : ExtractionResult) (s : Store),
      (∀ n ∈ r.tags, settled note s n.toList) →
      (∀ d ∈ r.action_items, validDescr d.toList = true) →
      ∃ s' sum, apply note r s = .ok (s', sum) ∧ s'.tags = s.tags ∧
        s'.noteTags = s.noteTags ∧ noteTagIds note s' = noteTagIds note s) := by
  have key : ∀ (note : Nat) (r : ExtractionResult) (s : Store),
      (∀ n ∈ r.tags, settled note s n.toList) →
      (∀ d ∈ r.action_items, validDescr d.toList = true) →
      ∃ s' sum, apply note r s = .ok (s', sum) ∧ s'.tags = s.tags ∧
        s'.noteTags = s.noteTags ∧ noteTagIds note s' = noteTagIds note s := by
    intro note r s htags hitems
    obtain ⟨s', sum, hok, hteq, hnteq⟩ := apply_settled_noop note r s htags hitems
    exact ⟨s', sum, hok, hteq, hnteq, by simp only [noteTagIds, hnteq]⟩
  refine ⟨?_, key⟩
  intro note text s s1 sum1 hap
  have hfields := apply_ok_fields note (extractRule text) s s1 sum1 hap
  have hset : ∀ n ∈ (extractRule text).tags, settled note s1 n.toList := by
    intro n hn
    have h1 := applyTags_settles note ((extractRule text).tags.map String.toList)
      s n.toList (List.mem_map_of_mem _ hn)
    exact settled_congr hfields.1 hfields.2.1 h1
  exact key note (extractRule text) s1 hset hfields.2.2

/-- Witness for claim C1: a store where the tag `Work` is already attached
to note 1 absorbs a result naming `work` with no change to the tag state. -/
theorem claim_C1_witness :
    ∃ s' sum,
      apply 1 { tags := ["work"], action_items := [] }
          { tags := [{ id := 0, name := "Work".toList }], noteTags := [(1, 0)],
            items := [], nextTagId := 1, nextItemId := 0 }
        = .ok (s', sum) ∧
      s'.tags = [{ id := 0, name := "Work".toList }] ∧
      s'.noteTags = [(1, 0)] ∧
      noteTagIds 1 s' =
        noteTagIds 1
          { tags := [{ id := 0, name := "Work".toList }], noteTags := [(1, 0)],
            items := [], nextTagId := 1, nextItemId := 0 } :=
  claim_C1.2 1 { tags := ["work"], action_items := [] }
    { tags := [{ id := 0, name := "Work".toList }], noteTags := [(1, 0)],
      items := [], nextTagId := 1, nextItemId := 0 }
    (by
      intro n hn
      have hn' : n = "work" := by simpa using hn
      subst hn'
      exact ⟨{ id := 0, name := "Work".toList }, by decide, by decide⟩)
    (by simp)

theorem findTag_none_fold (s : Store) (n : List Char) (h : findTag s n = none) :
    ∀ t ∈ s.tags, foldChars t.name ≠ foldChars n := by
  intro t ht hc
  have := List.find?_eq_none.mp h t ht
  simp [hc] at this

theorem upsertTag_inv (note : Nat) (n : List Char) (s : Store)
    (h : tagNamesDistinct s) : tagNamesDistinct (upsertTag note n s).1 := by
  unfold upsertTag
  cases hf : findTag s n with
  | some t =>
    by_cases hm : (note, t.id) ∈ s.noteTags
    · simp only [if_pos hm]
      exact h
    · simp only [if_neg hm]
      exact h
  | none =>
    have hnotin : foldChars n ∉ s.tags.map (fun t => foldChars t.name) := by
      intro hc
      rcases List.mem_map.mp hc with ⟨t, ht, heq⟩
      exact findTag_none_fold s n hf t ht heq
    have hnd : ((s.tags ++ [({ id := s.nextTagId, name := n } : TagRow)]).map
        (fun t => foldChars t.name)).Nodup := by
      rw [List.map_append]
      refine h.append (by simp) ?_
      intro a ha hb
      simp only [List.map_cons, List.map_nil, List.mem_singleton] at hb
      rw [hb] at ha
      exact hnotin ha
    by_cases hm : (note, s.nextTagId) ∈ s.noteTags
    · simp only [if_pos hm]
      exact hnd
    · simp only [if_neg hm]
      exact hnd

theorem applyTags_inv (note : Nat) (ns : List (List Char)) (s : Store)
    (h : tagNamesDistinct s) : tagNamesDistinct (applyTags note ns s).1 := by
  induction ns generalizing s with
  | nil => exact h
  | cons m ms ih => exact ih (upsertTag note m s).1 (upsertTag_inv note m s h)

theorem apply_ok_inv (note : Nat) (r : ExtractionResult) (s s' : Store)
    (sum : Summary) (h : tagNamesDistinct s)
    (ha : apply note r s = .ok (s', sum)) : tagNamesDistinct s' := by
  have hfields := apply_ok_fields note r s s' sum ha
  unfold tagNamesDistinct
  rw [hfields.1]
  exact applyTags_inv note _ s h

theorem filter_fold_length_one (tags : List TagRow) (n : List Char) (t : TagRow)
    (hnd : (tags.map (fun tr => foldChars tr.name)).Nodup)
    (hf : tags.find? (fun tr => foldChars tr.name == foldChars n) = some t) :
    (tags.filter (fun tr => foldChars tr.name == foldChars n)).length = 1 := by
  induction tags with
  | nil => simp [List.find?] at hf
  | cons a rest ih =>
    simp only [List.map_cons, List.nodup_cons] at hnd
    by_cases hp : (foldChars a.name == foldChars n) = true
    · have hrest : rest.filter (fun tr => foldChars tr.name == foldChars n) = [] := by
        rw [List.filter_eq_nil_iff]
        intro tr htr hc
        have heq : foldChars tr.name = foldChars n := by simpa using hc
        have heqa : foldChars a.name = foldChars n := by simpa using hp
        exact hnd.1 (by
          rw [heqa, ← heq]
          exact List.mem_map_of_mem _ htr)
      simp [List.filter_cons, hp, hrest]
    · rw [List.find?_cons_of_neg _ (by simpa using hp)] at hf
      simp only [List.filter_cons, hp, Bool.false_eq_true, if_false]
      exact ih hnd.2 hf

/-- Claim C3: the Tag-row uniqueness invariant — no two Tag rows with names
equal under case-folding — holds of the store visible after every `apply`
call (successful or rolled back) when it held before, and after a
successful `apply` each applied tag name is carried by exactly one Tag row;
in particular a second `apply` creating the same tag name cannot introduce a
duplicate row. -/
theorem claim_C3 (note : Nat) (r : ExtractionResult) (s : Store)
    (h : tagNamesDistinct s) :
    tagNamesDistinct (postApply note r s) ∧
    (∀ s' sum, apply note r s = .ok (s', sum) → ∀ n ∈ r.tags,
      (s'.tags.filter (fun t => foldChars t.name == foldChars n.toList)).length
        = 1) := by
  constructor
  · cases ha : apply note r s with
    | error e =>
      simp only [postApply, ha]
      exact h
    | ok p =>
      obtain ⟨s', sum⟩ := p
      simp only [postApply, ha]
      exact apply_ok_inv note r s s' sum h ha
  · intro s' sum ha n hn
    have hinv' : tagNamesDistinct s' := apply_ok_inv note r s s' sum h ha
    have hfields := apply_ok_fields note r s s' sum ha
    have hsettle := applyTags_settles note (r.tags.map String.toList) s n.toList
      (List.mem_map_of_mem _ hn)
    obtain ⟨t, hft, -⟩ := settled_congr hfields.1 hfields.2.1 hsettle
    exact filter_fold_length_one s'.tags n.toList t hinv' hft

/-- Witness for claim C3: applying a result creating `Work` to the empty
store preserves the uniqueness invariant. -/
theorem claim_C3_witness :
    tagNamesDistinct
      (postApply 1 { tags := ["Work"], action_items := [] }
        { tags := [], noteTags := [], items := [], nextTagId := 0,
          nextItemId := 0 }) :=
  (claim_C3 1 { tags := ["Work"], action_items := [] }
    { tags := [], noteTags := [], items := [], nextTagId := 0, nextItemId := 0 }
    (by simp [tagNamesDistinct])).1

end NotesPipeline

namespace Frontend

/-! ## Claims about the frontend helpers -/

/-- Claim C9: with a non-empty tag selection, a note is displayed iff it
carries every selected tag id (AND mode) or at least one selected tag id
(OR mode); in both modes a note carrying none of the selected tags is
excluded. -/
theorem claim_C9 (allNotes : List NoteF) (sel : List Nat) (mode : FilterMode)
    (note : NoteF) (hsel : sel ≠ []) :
    (note ∈ filterNotesByTags allNotes sel mode ↔
      note ∈ allNotes ∧
        (match mode with
         | .AND => ∀ tagId ∈ sel, tagId ∈ note.tags.map (·.id)
         | .OR => ∃ tagId ∈ sel, tagId ∈ note.tags.map (·.id))) ∧
    ((∀ tagId ∈ sel, tagId ∉ note.tags.map (·.id)) →
      note ∉ filterNotesByTags allNotes sel mode) := by
  have hiff : note ∈ filterNotesByTags allNotes sel mode ↔
      note ∈ allNotes ∧
        (match mode with
         | .AND => ∀ tagId ∈ sel, tagId ∈ note.tags.map (·.id)
         | .OR => ∃ tagId ∈ sel, tagId ∈ note.tags.map (·.id)) := by
    rw [filterNotesByTags, List.mem_filter]
    cases mode with
    | AND => simp [List.all_eq_true, List.elem_iff]
    | OR => simp [List.any_eq_true, List.elem_iff]
  refine ⟨hiff, ?_⟩
  intro hnone hmem
  obtain ⟨-, hcond⟩ := hiff.mp hmem
  cases mode with
  | AND =>
    obtain ⟨tagId, hin⟩ := List.exists_mem_of_ne_nil sel hsel
    exact hnone tagId hin (hcond tagId hin)
  | OR =>
    obtain ⟨tagId, hin, hmem'⟩ := hcond
    exact hnone tagId hin hmem'

/-- Witness for claim C9: a note tagged only with id 3 is excluded when the
selection is the single id 7, in OR mode. -/
theorem claim_C9_witness :
    { id := 1, title := "n", content := "c",
      tags := [{ id := 3, name := "x" }] : NoteF } ∉
      filterNotesByTags
        [{ id := 1, title := "n", content := "c",
           tags := [{ id := 3, name := "x" }] }]
        [7] FilterMode.OR :=
  (claim_C9
    [{ id := 1, title := "n", content := "c", tags := [{ id := 3, name := "x" }] }]
    [7] FilterMode.OR
    { id := 1, title := "n", content := "c", tags := [{ id := 3, name := "x" }] }
    (by decide)).2 (by decide)

/-- Claim C10: `getTagColor` is deterministic — equal names yield the
identical string — and always renders `hsl(h, s%, l%)` with hue below 360,
saturation between 60 and 80, and lightness between 85 and 94. -/
theorem claim_C10 (name : List Nat) :
    getTagColor name = getTagColor name ∧
    getTagColor name =
      renderHSL (hueOf (hashName name)) (satOf (hashName name))
        (lightOf (hashName name)) ∧
    hueOf (hashName name) < 360 ∧
    60 ≤ satOf (hashName name) ∧ satOf (hashName name) ≤ 80 ∧
    85 ≤ lightOf (hashName name) ∧ lightOf (hashName name) ≤ 94 := by
  refine ⟨rfl, rfl, ?_, ?_, ?_, ?_, ?_⟩
  · exact Nat.mod_lt _ (by norm_num)
  · exact Nat.le_add_right 60 _
  · have h := Nat.mod_lt ((toInt32 (hashName name)).fdiv 256).natAbs
      (y := 20) (by norm_num)
    unfold satOf
    omega
  · exact Nat.le_add_right 85 _
  · have h := Nat.mod_lt ((toInt32 (hashName name)).fdiv 65536).natAbs
      (y := 10) (by norm_num)
    unfold lightOf
    omega

end Frontend
